import Mathlib

/-!
Verification of the local-agent repository (fs-chatAgent).

This file shallowly embeds the core pure logic of the repository:

  * src/agent_app/chunking.py            (chunk_text)
  * src/agent_app/graphs/index_graph.py  (diff, parse_chunk, upsert_vectors, commit_run)
  * src/agent_app/main.py                (calculate_relevance_score, normalize_local_results,
                                          merge_and_rank_results, web_search engine loop)

Python strings are modelled as lists of characters (Str), Python floats as
exact rationals, fallible provider calls as Option values (none = raised),
and the SQL files table as a finite map from path to row.  Mutation of the
caller-supplied result lists inside merge_and_rank_results is modelled by
returning the post-call contents of those lists alongside the output.
-/

/-- Python strings are modelled as lists of characters. -/
abbrev Str := List Char

/-- Python str.lower() (ASCII model). -/
def lowerStr (s : Str) : Str := s.map Char.toLower

/-- Python str.strip(): drop leading and trailing whitespace. -/
def stripStr (s : Str) : Str :=
  ((s.dropWhile Char.isWhitespace).reverse.dropWhile Char.isWhitespace).reverse

/-- Does the pattern occur as a leading segment of the list?
Used to model Python substring operations. -/
def startsWith : Str → Str → Bool
  | [], _ => true
  | _ :: _, [] => false
  | p :: ps, c :: cs => p == c && startsWith ps cs

/-- Python substring test: pat occurs somewhere inside l (the `in` operator). -/
def isSubstr (pat : Str) : Str → Bool
  | [] => pat.isEmpty
  | c :: rest => startsWith pat (c :: rest) || isSubstr pat rest

/-- Python str.count(pat) for nonempty pat with first char p and tail ps:
count non-overlapping occurrences, scanning left to right and skipping over
each found occurrence. -/
def countFrom (p : Char) (ps : Str) : Str → Nat
  | [] => 0
  | c :: rest =>
      if startsWith (p :: ps) (c :: rest) then 1 + countFrom p ps (rest.drop ps.length)
      else countFrom p ps rest
termination_by l => l.length
decreasing_by
  · simp only [List.length_drop, List.length_cons]; omega
  · simp only [List.length_cons]; omega

/-- Python str.count(pat): for an empty pattern Python returns len+1. -/
def countSub (pat : Str) (l : Str) : Nat :=
  match pat with
  | [] => l.length + 1
  | p :: ps => countFrom p ps l

/-- Python str.split() with no argument: split on runs of whitespace,
discarding empty pieces.  The accumulator holds the current word reversed. -/
def splitWsAux : Str → Str → List Str
  | [], cur => if cur.isEmpty then [] else [cur.reverse]
  | c :: rest, cur =>
      if c.isWhitespace then
        (if cur.isEmpty then splitWsAux rest [] else cur.reverse :: splitWsAux rest [])
      else splitWsAux rest (c :: cur)

/-- Python str.split() with no argument. -/
def splitWs (s : Str) : List Str := splitWsAux s []

/-- Splitting on single delimiter characters, keeping empty pieces:
models Python re.split and str.split(sep). -/
def splitOnPred (p : Char → Bool) : Str → Str → List Str
  | [], cur => [cur.reverse]
  | c :: rest, cur =>
      if p c then cur.reverse :: splitOnPred p rest []
      else splitOnPred p rest (c :: cur)

/-! ## Chunking (src/agent_app/chunking.py, chunk_text)

The while loop of chunk_text, translated directly.  approx is the effective
window size max(200, target_tokens*4); stride is max(0, approx - overlap*4)
(natural subtraction).  The loop advances by stride when stride > 0 and by
the full window otherwise, and stops right after emitting the window whose
end reaches the text length.  A positivity hypothesis on approx (true at the
single call site, where approx >= 200) justifies termination. -/

def chunkLoop (text : Str) (approx stride : Nat) (ha : 0 < approx) (i : Nat) :
    List (Nat × Nat × Str) :=
  if h : i < text.length then
    let j := min text.length (i + approx)
    let c : Nat × Nat × Str := (i, j, (text.drop i).take (j - i))
    if j = text.length then [c]
    else c :: chunkLoop text approx stride ha (i + (if 0 < stride then stride else approx))
  else []
termination_by text.length - i
decreasing_by
  split <;> omega

/-- chunk_text from src/agent_app/chunking.py: empty text gives no chunks;
otherwise run the window loop from offset 0. -/
def chunk_text (text : Str) (target_tokens : Nat := 800) (overlap : Nat := 80) :
    List (Nat × Nat × Str) :=
  if text.isEmpty then []
  else
    chunkLoop text (max 200 (target_tokens * 4)) (max 200 (target_tokens * 4) - overlap * 4)
      (Nat.lt_of_lt_of_le (by norm_num) (Nat.le_max_left 200 (target_tokens * 4))) 0

/-- The same while loop with explicit fuel: none models non-termination
within the given number of iterations.  Used to state that the source loop
terminates within length+1 iterations for every input. -/
def chunkLoopF (text : Str) (approx stride : Nat) : Nat → Nat → Option (List (Nat × Nat × Str))
  | 0, _ => none
  | fuel + 1, i =>
    if i < text.length then
      let j := min text.length (i + approx)
      let c : Nat × Nat × Str := (i, j, (text.drop i).take (j - i))
      if j = text.length then some [c]
      else (chunkLoopF text approx stride fuel (i + (if 0 < stride then stride else approx))).map
            (fun l => c :: l)
    else some []

/-! ## Index graph (src/agent_app/graphs/index_graph.py)

The run state carries the fields of IndexState that the diff, parse_chunk,
upsert_vectors and commit_run stages read or write.  Stats counters and the
embedding list are not modelled (no claim mentions them).  The files table
of the relational store is modelled as a finite map path -> row; the
format-specific text reader (read_text_str, with its exception handler that
yields the empty string) is a parameter readText of parse_chunk. -/

structure FileRec where
  path : String
  bytes : Nat
  mtime_ns : Nat
  sha256 : String
  mime : String
  ext : String
deriving DecidableEq, Repr

structure ChunkRec where
  file : FileRec
  chunk_idx : Nat
  char_start : Nat
  char_end : Nat
  text : Str
deriving DecidableEq, Repr

structure IndexState where
  mode : String
  force_reembed : Bool
  files : List FileRec
  changed : List FileRec
  chunks : List ChunkRec
  errors : List String
deriving DecidableEq, Repr

/-- Row of the durable files table (columns written by commit_run). -/
structure FileRow where
  bytes : Nat
  mtime_ns : Nat
  sha256 : String
  mime : String
  last_indexed_at : String
deriving DecidableEq, Repr

/-- diff from index_graph.py.  known models the persisted files table read
SELECT path, sha256 FROM files as a map path -> sha256.  With force_reembed
every discovered file is changed; otherwise a file is kept when mode is
"full", or its path is unknown, or the persisted fingerprint differs
(Python short-circuit or, translated by matching on the lookup). -/
def diffStage (known : String → Option String) (s : IndexState) : IndexState :=
  if s.force_reembed then { s with changed := s.files }
  else
    { s with changed :=
        s.files.filter (fun f =>
          (s.mode == "full") ||
            (match known f.path with
             | none => true
             | some sha => sha != f.sha256)) }

/-- parse_chunk from index_graph.py.  For each changed file, read its text
(readText folds read_text_str together with the except-clause that maps a
raised exception to the empty string); an empty text records a soft error
parse-empty:<path> and contributes no chunks; otherwise the text is chunked
with the fixed parameters (800, 80) and each chunk records its owning file,
sequence index and character span. -/
def parse_chunkStage (readText : String → Str) (s : IndexState) : IndexState :=
  let texts : List (FileRec × Str) :=
    s.changed.filterMap (fun f =>
      let data := readText f.path
      if data.isEmpty then none else some (f, data))
  let newErrors : List String :=
    s.changed.filterMap (fun f =>
      if (readText f.path).isEmpty then some ("parse-empty:" ++ f.path) else none)
  let chunks : List ChunkRec :=
    texts.flatMap (fun ft =>
      (chunk_text ft.2 800 80).enum.map (fun ic =>
        { file := ft.1, chunk_idx := ic.1, char_start := ic.2.1,
          char_end := ic.2.2.1, text := ic.2.2.2 }))
  { s with chunks := chunks, errors := s.errors ++ newErrors }

/-- The vector-record identifiers built by upsert_vectors in
index_graph.py: vid = f"{f['sha256']}:{c['chunk_idx']}" for each chunk, in
order. -/
def upsertIds (s : IndexState) : List String :=
  s.chunks.map (fun c => c.file.sha256 ++ ":" ++ toString c.chunk_idx)

/-- commit_run from index_graph.py: for every changed file, INSERT ... ON
CONFLICT(path) DO UPDATE into the files table, stamping now as
last_indexed_at.  The table is a map path -> row; the upsert overwrites the
entry at the file's path. -/
def commit_runStage (table : String → Option FileRow) (s : IndexState) (now : String) :
    String → Option FileRow :=
  s.changed.foldl
    (fun t f => fun p =>
      if p = f.path then some ⟨f.bytes, f.mtime_ns, f.sha256, f.mime, now⟩ else t p)
    table

/-! ## difflib.SequenceMatcher (stdlib, called by calculate_relevance_score)

calculate_relevance_score calls SequenceMatcher(None, a, b).ratio() with
a = the lowered stripped query and b = the first 1000 characters of
title+body.  With isjunk = None the junk set bjunk is empty, so the junk
extension loops of find_longest_match are no-ops and are omitted below;
the autojunk heuristic (Python default) removes "popular" characters from
b2j when len(b) >= 200.  The dictionaries b2j and j2len are modelled as
functions.  The recursion of get_matching_blocks over subintervals is run
on explicit fuel; len(a)+len(b)+1 bounds its depth, since each recursive
subinterval is strictly smaller. -/

namespace SM

structure Best where
  besti : Nat
  bestj : Nat
  bsize : Nat
deriving DecidableEq, Repr

/-- Indices at which character c occurs in b, in increasing order
(the b2j chain before junk purging). -/
def positions (b : Str) (c : Char) : List Nat :=
  b.enum.filterMap (fun p => if p.2 == c then some p.1 else none)

/-- b2j after the autojunk purge: characters occurring more than
len(b)//100 + 1 times are dropped when len(b) >= 200. -/
def b2j (b : Str) (c : Char) : List Nat :=
  let n := b.length
  let pos := positions b c
  if 200 ≤ n ∧ pos.length > n / 100 + 1 then [] else pos

/-- Inner j-loop of find_longest_match over b2j[a[i]]: j < blo is skipped
(continue), j >= bhi stops the scan (break, valid because the index list is
increasing), and otherwise the run length k = j2len.get(j-1, 0) + 1 is
recorded in newj2len and the best match is updated when k is a new
maximum.  Python's j-1 for j = 0 is -1, absent from the dict, so k = 1. -/
def innerLoop (j2len : Nat → Nat) (i blo bhi : Nat) :
    List Nat → (Nat → Nat) → Best → (Nat → Nat) × Best
  | [], acc, best => (acc, best)
  | j :: js, acc, best =>
    if j < blo then innerLoop j2len i blo bhi js acc best
    else if bhi ≤ j then (acc, best)
    else
      let k := (if j = 0 then 0 else j2len (j - 1)) + 1
      let acc2 : Nat → Nat := fun x => if x = j then k else acc x
      let best2 := if best.bsize < k then ⟨i + 1 - k, j + 1 - k, k⟩ else best
      innerLoop j2len i blo bhi js acc2 best2

/-- Outer i-loop of find_longest_match: fold over i in range(alo, ahi),
threading j2len between rows and starting each row with an empty newj2len. -/
def outerLoop (a b : Str) (alo ahi blo bhi : Nat) : Best :=
  ((List.range' alo (ahi - alo)).foldl
    (fun (st : (Nat → Nat) × Best) i =>
      innerLoop st.1 i blo bhi (b2j b (a.getD i ' ')) (fun _ => 0) st.2)
    ((fun _ => 0), ⟨alo, blo, 0⟩)).2

/-- Backward extension while besti > alo, bestj > blo and the preceding
characters match (bjunk is empty, so the junk guard always passes). -/
def extBack (a b : Str) (alo blo : Nat) (besti bestj bsize : Nat) : Best :=
  if h : alo < besti ∧ blo < bestj ∧ a.getD (besti - 1) ' ' = b.getD (bestj - 1) ' ' then
    extBack a b alo blo (besti - 1) (bestj - 1) (bsize + 1)
  else ⟨besti, bestj, bsize⟩
termination_by besti

/-- Forward extension while the characters after the match agree. -/
def extFwd (a b : Str) (ahi bhi besti bestj : Nat) (bsize : Nat) : Nat :=
  if h : besti + bsize < ahi ∧ bestj + bsize < bhi ∧
      a.getD (besti + bsize) ' ' = b.getD (bestj + bsize) ' ' then
    extFwd a b ahi bhi besti bestj (bsize + 1)
  else bsize
termination_by ahi - (besti + bsize)
decreasing_by omega

/-- find_longest_match(alo, ahi, blo, bhi) with empty junk set. -/
def flm (a b : Str) (alo ahi blo bhi : Nat) : Best :=
  let base := outerLoop a b alo ahi blo bhi
  let back := extBack a b alo blo base.besti base.bestj base.bsize
  ⟨back.besti, back.bestj, extFwd a b ahi bhi back.besti back.bestj back.bsize⟩

/-- Total size of the matching blocks found by get_matching_blocks on the
given interval (the queue recursion, with explicit fuel). -/
def matchesTotal (a b : Str) : Nat → Nat → Nat → Nat → Nat → Nat
  | 0, _, _, _, _ => 0
  | fuel + 1, alo, ahi, blo, bhi =>
    let m := flm a b alo ahi blo bhi
    if m.bsize = 0 then 0
    else
      (if alo < m.besti ∧ blo < m.bestj then matchesTotal a b fuel alo m.besti blo m.bestj
       else 0)
      + m.bsize
      + (if m.besti + m.bsize < ahi ∧ m.bestj + m.bsize < bhi then
           matchesTotal a b fuel (m.besti + m.bsize) ahi (m.bestj + m.bsize) bhi
         else 0)

end SM

/-- SequenceMatcher(None, a, b).ratio(): 2*M/T where M is the total size of
the matching blocks and T = len(a)+len(b); Python returns 1.0 when T = 0. -/
def seqSimilarity (a b : Str) : ℚ :=
  let total := a.length + b.length
  let m := SM.matchesTotal a b (total + 1) 0 a.length 0 b.length
  if 0 < total then 2 * (m : ℚ) / (total : ℚ) else 1

/-! ## Relevance scoring and result fusion (src/agent_app/main.py) -/

/-- calculate_relevance_score from main.py.  Python floats are modelled as
exact rationals (0.95 = 19/20, the weights 0.5, 0.3, 0.2 likewise).  The
two early returns use the Python substring operator (an empty query is a
substring of every title, so the empty and whitespace-only query returns
1.0 before the term statistics, and the division by len(query_terms)*3 is
only reached with a nonempty query). -/
def calculate_relevance_score (query text title : Str) : ℚ :=
  let query_lower := stripStr (lowerStr query)
  let text_lower := stripStr (lowerStr text)
  let title_lower := stripStr (lowerStr title)
  let combined := title_lower ++ [' '] ++ text_lower
  if isSubstr query_lower title_lower then 1
  else if isSubstr query_lower text_lower then 19 / 20
  else
    let query_terms := (splitWs query_lower).toFinset
    let combined_terms := (splitWs combined).toFinset
    let term_coverage : ℚ :=
      if 0 < query_terms.card then
        ((query_terms ∩ combined_terms).card : ℚ) / (query_terms.card : ℚ)
      else 0
    let term_freq_raw : ℚ := query_terms.sum (fun t => (countSub t combined : ℚ))
    let term_freq_score : ℚ := min (term_freq_raw / ((query_terms.card : ℚ) * 3)) 1
    let sequence_sim := seqSimilarity query_lower (combined.take 1000)
    let combined_score :=
      term_coverage * (1 / 2) + term_freq_score * (3 / 10) + sequence_sim * (1 / 5)
    min combined_score 1

/-- UnifiedResult from main.py.  The metadata bag (a free-form dict used
only for display) is not modelled; score is an exact rational. -/
structure UnifiedResult where
  source : Str
  title : Str
  content : Str
  url : Option Str
  score : ℚ
deriving DecidableEq, Repr

/-- A local query hit as consumed by normalize_local_results: the dict keys
text, content, path, meta.path and score, with Python's .get defaults (a
missing key behaves as the empty string / 0 score). -/
structure Hit where
  text : Str
  content : Str
  path : Str
  meta_path : Str
  score : ℚ
deriving DecidableEq, Repr

/-- normalize_local_results from main.py.  content falls back from key
text to key content; path from key path to meta.path (Python or on
strings); the title is the last slash-separated path component, or the
placeholder for an empty path.  The 1.2 boost is applied only when the
original score is truthy (nonzero) and below 0.5, and the final score is
capped at 1. -/
def normalize_local_results (hits : List Hit) (query : Str) : List UnifiedResult :=
  hits.map (fun h =>
    let content := if h.text.isEmpty then h.content else h.text
    let path := if h.path.isEmpty then h.meta_path else h.path
    let file_name :=
      if path.isEmpty then "Local Document".toList
      else (splitOnPred (fun c => c == '/') path []).getLastD []
    let relevance := calculate_relevance_score query content file_name
    let relevance :=
      if h.score ≠ 0 ∧ h.score < 1 / 2 then relevance * (6 / 5) else relevance
    { source := "local".toList,
      title := file_name,
      content := content.take 500,
      url := if path.isEmpty then none else some ("file://".toList ++ path),
      score := min relevance 1 })

/-- Score boost used by the local_first / web_first strategies:
r.score = min(r.score * 1.3, 1.0). -/
def boost13 (r : UnifiedResult) : UnifiedResult :=
  { r with score := min (r.score * (13 / 10)) 1 }

/-- Stable insertion of a result into a list sorted by descending score:
placed before the first strictly smaller score, after equal scores. -/
def insertDesc (r : UnifiedResult) : List UnifiedResult → List UnifiedResult
  | [] => [r]
  | x :: xs => if x.score < r.score then r :: x :: xs else x :: insertDesc r xs

/-- sorted(key=lambda x: x.score, reverse=True): stable descending sort. -/
def sortDesc : List UnifiedResult → List UnifiedResult
  | [] => []
  | x :: xs => insertDesc x (sortDesc xs)

/-- Content fingerprint used for deduplication: lowercase stripped first
200 characters of the content. -/
def contentFp (r : UnifiedResult) : Str := stripStr (lowerStr (r.content.take 200))

/-- Is the url truthy in Python terms (not None and nonempty)? -/
def urlTruthy : Option Str → Bool
  | none => false
  | some u => !u.isEmpty

/-- The deduplication loop of merge_and_rank_results over the sorted
results: skip an item whose truthy url was already seen or whose content
fingerprint was already seen; otherwise append it, record its truthy url
and nonempty fingerprint, and stop once max_results items are collected. -/
def dedupLoop (maxResults : Nat) :
    List UnifiedResult → List UnifiedResult → List Str → List Str → List UnifiedResult
  | [], acc, _, _ => acc
  | r :: rest, acc, seenUrls, seenFps =>
    if urlTruthy r.url ∧ seenUrls.contains (r.url.getD []) then
      dedupLoop maxResults rest acc seenUrls seenFps
    else if seenFps.contains (contentFp r) then
      dedupLoop maxResults rest acc seenUrls seenFps
    else
      let acc2 := acc ++ [r]
      let seenUrls2 := if urlTruthy r.url then seenUrls ++ [r.url.getD []] else seenUrls
      let seenFps2 := if (contentFp r).isEmpty then seenFps else seenFps ++ [contentFp r]
      if maxResults ≤ acc2.length then acc2
      else dedupLoop maxResults rest acc2 seenUrls2 seenFps2

/-- The generic merge path of merge_and_rank_results (taken by balanced,
local_first, web_first and any unknown strategy): concatenate, sort by
descending score, deduplicate greedily with the max_results cap, then
re-sort and truncate. -/
def genericMerge (localResults webResults : List UnifiedResult) (maxResults : Nat) :
    List UnifiedResult :=
  let allResults := localResults ++ webResults
  let uniq := dedupLoop maxResults (sortDesc allResults) [] [] []
  (sortDesc uniq).take maxResults

/-- The interleaved strategy: local[0], web[0], local[1], web[1], ... with
the leftover of the longer list appended, then truncated to max_results. -/
def interleave : List UnifiedResult → List UnifiedResult → List UnifiedResult
  | [], ws => ws
  | l :: ls, [] => l :: ls
  | l :: ls, w :: ws => l :: w :: interleave ls ws

/-- Result of one call to merge_and_rank_results.  The source function
mutates the scores of the caller's local_results (strategy local_first) or
web_results (strategy web_first) in place before merging; the embedding
returns the post-call contents of both input lists alongside the output
list. -/
structure MergeOut where
  output : List UnifiedResult
  localResults : List UnifiedResult
  webResults : List UnifiedResult
deriving DecidableEq, Repr

/-- merge_and_rank_results from main.py. -/
def merge_and_rank_results (localResults webResults : List UnifiedResult)
    (strategy : Str) (maxResults : Nat) : MergeOut :=
  if strategy = "local_first".toList then
    let l2 := localResults.map boost13
    ⟨genericMerge l2 webResults maxResults, l2, webResults⟩
  else if strategy = "web_first".toList then
    let w2 := webResults.map boost13
    ⟨genericMerge localResults w2 maxResults, localResults, w2⟩
  else if strategy = "interleaved".toList then
    ⟨(interleave localResults webResults).take maxResults, localResults, webResults⟩
  else
    ⟨genericMerge localResults webResults maxResults, localResults, webResults⟩

/-! ## Web search engine loop (src/agent_app/main.py, web_search)

The two provider calls _exa_search and _serper_search are modelled as
Option values: none means the call raised, some rs means it returned rs.
Results are abstract (only their count matters to the endpoint shape). -/

/-- One entry of the web_search response. -/
structure WebResult where
  title : Str
  url : Str
  snippet : Str
  source : Str
deriving DecidableEq, Repr

/-- The response dict of web_search: engine, q, results. -/
structure WebSearchResponse where
  engine : Option Str
  q : Str
  results : List WebResult
deriving DecidableEq, Repr

/-- engines = [e.strip() for e in re.split(r"[|,]", engine) if e.strip()]. -/
def parseEngines (engine : Str) : List Str :=
  ((splitOnPred (fun c => c == '|' || c == ',') engine []).map stripStr).filter
    (fun e => !e.isEmpty)

/-- The for-loop of web_search: try exa or serper for each engine name; a
raised call (none) is caught and the loop continues; a successful call
rebinds results and the unconditional break ends the loop (also for an
unrecognized engine name, which calls nothing and breaks with the previous
results). -/
def webSearchLoop (exaRes serperRes : Option (List WebResult)) :
    List Str → List WebResult → List WebResult
  | [], results => results
  | eng :: rest, results =>
    if eng = "exa".toList then
      match exaRes with
      | some rs => rs
      | none => webSearchLoop exaRes serperRes rest results
    else if eng = "serper".toList then
      match serperRes with
      | some rs => rs
      | none => webSearchLoop exaRes serperRes rest results
    else results

/-- web_search from main.py (the engine-selection part, after query
validation): parse the engine list, run the fallback loop starting from
the empty result list, and report engine = engines[0] when the final
results list is truthy, else None.  The response carries no record of
failed attempts. -/
def web_search (engine q : Str) (exaRes serperRes : Option (List WebResult)) :
    WebSearchResponse :=
  let engines := parseEngines engine
  let results := webSearchLoop exaRes serperRes engines []
  ⟨if results.isEmpty then none else engines.head?, q, results⟩

/-! ## Theorems -/

lemma seqSimilarity_nonneg (a b : Str) : 0 ≤ seqSimilarity a b := by
  simp only [seqSimilarity]
  split
  · apply div_nonneg
    · positivity
    · positivity
  · norm_num

lemma crs_cases (query text title : Str) :
    calculate_relevance_score query text title = 1 ∨
    calculate_relevance_score query text title = 19 / 20 ∨
    ∃ c : ℚ, 0 ≤ c ∧ calculate_relevance_score query text title = min c 1 := by
  simp only [calculate_relevance_score]
  split
  · exact Or.inl rfl
  split
  · exact Or.inr (Or.inl rfl)
  refine Or.inr (Or.inr ⟨_, ?_, rfl⟩)
  refine add_nonneg (add_nonneg (mul_nonneg ?_ (by norm_num)) (mul_nonneg ?_ (by norm_num)))
    (mul_nonneg (seqSimilarity_nonneg _ _) (by norm_num))
  · split
    · apply div_nonneg <;> positivity
    · norm_num
  · refine le_min ?_ (by norm_num)
    apply div_nonneg
    · exact Finset.sum_nonneg (fun t _ => by positivity)
    · positivity

/-- C1: for every query, text and title (the empty and whitespace-only
query and the empty text included), calculate_relevance_score returns a
value in the closed interval [0, 1]. -/
theorem spec_c1_relevance_score_bounds (query text title : Str) :
    0 ≤ calculate_relevance_score query text title ∧
    calculate_relevance_score query text title ≤ 1 := by
  rcases crs_cases query text title with h | h | ⟨c, hc, h⟩ <;> rw [h]
  · norm_num
  · norm_num
  · exact ⟨le_min hc (by norm_num), min_le_right _ _⟩

/-- C2: in the live web_search, with engine list "exa|serper", a raising
exa call and a succeeding serper call, the response reports the FIRST
engine of the list ("exa", via engines[0]) rather than "serper", and the
response dict carries no attempt log at all (its only keys are engine, q,
results).  This contradicts the spec scenario and the repository's own
test test_web_search_fallback_to_serper, which asserts engine == "serper"
and a nonempty attempt_errors list. -/
theorem spec_c2_web_search_fallback_misreports :
    (web_search "exa|serper".toList "test".toList none
        (some [⟨"S".toList, "https://s".toList, "serper".toList, "serper".toList⟩])).results =
      [⟨"S".toList, "https://s".toList, "serper".toList, "serper".toList⟩] ∧
    (web_search "exa|serper".toList "test".toList none
        (some [⟨"S".toList, "https://s".toList, "serper".toList, "serper".toList⟩])).engine =
      some "exa".toList ∧
    (web_search "exa|serper".toList "test".toList none
        (some [⟨"S".toList, "https://s".toList, "serper".toList, "serper".toList⟩])).engine ≠
      some "serper".toList := by
  refine ⟨by decide, by decide, by decide⟩

lemma merge_eq_local_first (ls ws : List UnifiedResult) (maxR : Nat) :
    merge_and_rank_results ls ws "local_first".toList maxR =
      ⟨genericMerge (ls.map boost13) ws maxR, ls.map boost13, ws⟩ := by
  simp [merge_and_rank_results]

lemma merge_eq_web_first (ls ws : List UnifiedResult) (maxR : Nat) :
    merge_and_rank_results ls ws "web_first".toList maxR =
      ⟨genericMerge ls (ws.map boost13) maxR, ls, ws.map boost13⟩ := by
  simp [merge_and_rank_results]

lemma merge_eq_interleaved (ls ws : List UnifiedResult) (maxR : Nat) :
    merge_and_rank_results ls ws "interleaved".toList maxR =
      ⟨(interleave ls ws).take maxR, ls, ws⟩ := by
  simp [merge_and_rank_results]

/-- C10: with strategy local_first (resp. web_first) merge_and_rank_results
rewrites the caller's local (resp. web) input list in place, replacing every
score by min(score*1.3, 1); the other list is untouched, and calling again
on the already re-weighted list compounds the boost. -/
theorem spec_c10_strategy_reweights_inputs (ls ws : List UnifiedResult) (maxR : Nat) :
    (merge_and_rank_results ls ws "local_first".toList maxR).localResults = ls.map boost13 ∧
    (merge_and_rank_results ls ws "local_first".toList maxR).webResults = ws ∧
    (merge_and_rank_results ls ws "web_first".toList maxR).webResults = ws.map boost13 ∧
    (merge_and_rank_results ls ws "web_first".toList maxR).localResults = ls ∧
    (merge_and_rank_results
        ((merge_and_rank_results ls ws "local_first".toList maxR).localResults)
        ws "local_first".toList maxR).localResults =
      ls.map (fun r => boost13 (boost13 r)) := by
  refine ⟨?_, ?_, ?_, ?_, ?_⟩
  · rw [merge_eq_local_first]
  · rw [merge_eq_local_first]
  · rw [merge_eq_web_first]
  · rw [merge_eq_web_first]
  · rw [merge_eq_local_first, merge_eq_local_first]
    simp [List.map_map, Function.comp]

/-- C3 counterexample: a local hit whose original vector distance is
exactly 0 (strictly below 0.5) does NOT receive the 1.2 boost, because the
source guards the boost with Python truthiness (if original_score and
original_score < 0.5).  With query "hello" and content "hello world" the
recomputed relevance is 0.95, so the claim's score min(1.2*0.95, 1) = 1,
but the code returns 0.95. -/
theorem spec_c3_counterexample :
    (⟨"hello world".toList, [], "a/b.txt".toList, [], 0⟩ : Hit).score < 1 / 2 ∧
    (normalize_local_results [⟨"hello world".toList, [], "a/b.txt".toList, [], 0⟩]
        "hello".toList).map UnifiedResult.score ≠
      [min (calculate_relevance_score "hello".toList "hello world".toList "b.txt".toList
        * (6 / 5)) 1] := by
  have hL : (normalize_local_results [⟨"hello world".toList, [], "a/b.txt".toList, [], 0⟩]
      "hello".toList).map UnifiedResult.score = [min ((19 : ℚ) / 20) 1] := by rfl
  have hR : calculate_relevance_score "hello".toList "hello world".toList "b.txt".toList =
      (19 : ℚ) / 20 := by rfl
  refine ⟨by norm_num, ?_⟩
  rw [hL, hR]
  norm_num [min_def]

/-- C3 amended: the 1.2 boost applies exactly when the original vector
distance is truthy (nonzero) AND strictly below 0.5; a distance of exactly
0, or at least 0.5, yields min(relevance, 1) unboosted.  content and
filename are derived from the hit the way the source derives them. -/
theorem spec_c3_local_boost_guard (hit : Hit) (q : Str) :
    ((hit.score ≠ 0 ∧ hit.score < 1 / 2) →
      (normalize_local_results [hit] q).map UnifiedResult.score =
        [min (calculate_relevance_score q
            (if hit.text.isEmpty then hit.content else hit.text)
            (if (if hit.path.isEmpty then hit.meta_path else hit.path).isEmpty then
              "Local Document".toList
             else (splitOnPred (fun c => c == '/')
                (if hit.path.isEmpty then hit.meta_path else hit.path) []).getLastD [])
          * (6 / 5)) 1]) ∧
    ((hit.score = 0 ∨ 1 / 2 ≤ hit.score) →
      (normalize_local_results [hit] q).map UnifiedResult.score =
        [min (calculate_relevance_score q
            (if hit.text.isEmpty then hit.content else hit.text)
            (if (if hit.path.isEmpty then hit.meta_path else hit.path).isEmpty then
              "Local Document".toList
             else (splitOnPred (fun c => c == '/')
                (if hit.path.isEmpty then hit.meta_path else hit.path) []).getLastD [])) 1]) := by
  constructor
  · intro hcond
    simp only [normalize_local_results, List.map]
    rw [if_pos hcond]
  · intro hcond
    simp only [normalize_local_results, List.map]
    rw [if_neg (by rcases hcond with h | h <;> rintro ⟨h1, h2⟩ <;> [exact h1 h; linarith])]

/-- C3 witness: a hit with distance 1/4 (truthy, below 0.5) and content
containing the query gets the boosted capped score 1. -/
theorem spec_c3_witness :
    (normalize_local_results [⟨"hello world".toList, [], "a/b.txt".toList, [], 1 / 4⟩]
        "hello".toList).map UnifiedResult.score = [1] := by
  have h := (spec_c3_local_boost_guard
      ⟨"hello world".toList, [], "a/b.txt".toList, [], 1 / 4⟩ "hello".toList).1
      ⟨by norm_num, by norm_num⟩
  have h2 := h.trans (by rfl :
    ([min (calculate_relevance_score "hello".toList
        (if (⟨"hello world".toList, [], "a/b.txt".toList, [], 1 / 4⟩ : Hit).text.isEmpty then
          (⟨"hello world".toList, [], "a/b.txt".toList, [], 1 / 4⟩ : Hit).content
         else (⟨"hello world".toList, [], "a/b.txt".toList, [], 1 / 4⟩ : Hit).text)
        (if (if (⟨"hello world".toList, [], "a/b.txt".toList, [], 1 / 4⟩ : Hit).path.isEmpty then
              (⟨"hello world".toList, [], "a/b.txt".toList, [], 1 / 4⟩ : Hit).meta_path
             else (⟨"hello world".toList, [], "a/b.txt".toList, [], 1 / 4⟩ : Hit).path).isEmpty then
          "Local Document".toList
         else (splitOnPred (fun c => c == '/')
            (if (⟨"hello world".toList, [], "a/b.txt".toList, [], 1 / 4⟩ : Hit).path.isEmpty then
              (⟨"hello world".toList, [], "a/b.txt".toList, [], 1 / 4⟩ : Hit).meta_path
             else (⟨"hello world".toList, [], "a/b.txt".toList, [], 1 / 4⟩ : Hit).path) []).getLastD [])
      * (6 / 5)) 1] = [min ((19 : ℚ) / 20 * (6 / 5)) 1]))
  rw [h2]
  norm_num [min_def]

lemma chunkLoop_spec (text : Str) (approx stride : Nat) (ha : 0 < approx)
    (hs : stride ≤ approx) :
    ∀ m i, text.length - i ≤ m → i < text.length →
      (chunkLoop text approx stride ha i).head?.map (fun c => c.1) = some i ∧
      ((chunkLoop text approx stride ha i).getLast?.map (fun c => c.2.1)) =
        some text.length ∧
      (∀ c ∈ chunkLoop text approx stride ha i,
        i ≤ c.1 ∧ c.1 < c.2.1 ∧ c.2.1 ≤ text.length) ∧
      (∀ k, i ≤ k → k < text.length →
        ∃ c ∈ chunkLoop text approx stride ha i, c.1 ≤ k ∧ k < c.2.1) ∧
      List.Chain' (fun c d => c.1 < d.1 ∧ d.1 ≤ c.2.1)
        (chunkLoop text approx stride ha i) := by
  intro m
  induction m with
  | zero => intro i h1 h2; omega
  | succ m ih =>
    intro i hm hi
    have hunf : chunkLoop text approx stride ha i =
        (if min text.length (i + approx) = text.length
         then [(i, min text.length (i + approx),
                ((text.drop i).take (min text.length (i + approx) - i)))]
         else (i, min text.length (i + approx),
                ((text.drop i).take (min text.length (i + approx) - i))) ::
           chunkLoop text approx stride ha
             (i + (if 0 < stride then stride else approx))) := by
      rw [chunkLoop, dif_pos hi]
    by_cases hj : min text.length (i + approx) = text.length
    · rw [if_pos hj] at hunf
      rw [hunf]
      refine ⟨rfl, by simp [hj], ?_, ?_, ?_⟩
      · intro c hc
        simp only [List.mem_singleton] at hc
        subst hc
        refine ⟨le_refl i, ?_, min_le_left _ _⟩
        simp only
        omega
      · intro k hk1 hk2
        exact ⟨_, List.mem_singleton_self _, hk1, by simpa [hj] using hk2⟩
      · exact List.chain'_singleton _
    · have hlt : i + approx < text.length := by omega
      have hjeq : min text.length (i + approx) = i + approx := by omega
      have hst1 : 1 ≤ (if 0 < stride then stride else approx) := by split <;> omega
      have hstA : (if 0 < stride then stride else approx) ≤ approx := by split <;> omega
      have hi' : i + (if 0 < stride then stride else approx) < text.length := by omega
      have hm' : text.length - (i + (if 0 < stride then stride else approx)) ≤ m := by
        omega
      obtain ⟨ihh, ihl, ihb, ihc, ihch⟩ := ih _ hm' hi'
      rw [if_neg hj] at hunf
      cases hL : chunkLoop text approx stride ha
          (i + (if 0 < stride then stride else approx)) with
      | nil => rw [hL] at ihh; simp at ihh
      | cons x xs =>
        rw [hL] at ihh ihl ihb ihc ihch
        simp only [List.head?_cons, Option.map_some] at ihh
        have hx1 : x.1 = i + (if 0 < stride then stride else approx) :=
          Option.some.inj ihh
        rw [hunf, hL]
        refine ⟨rfl, ?_, ?_, ?_, ?_⟩
        · rw [List.getLast?_cons_cons]
          exact ihl
        · intro c hc
          rcases List.mem_cons.mp hc with hc | hc
          · subst hc
            refine ⟨le_refl i, ?_, min_le_left _ _⟩
            simp only
            omega
          · obtain ⟨h1, h2, h3⟩ := ihb c hc
            exact ⟨by omega, h2, h3⟩
        · intro k hk1 hk2
          by_cases hkj : k < min text.length (i + approx)
          · exact ⟨_, List.mem_cons_self _ _, hk1, hkj⟩
          · obtain ⟨c, hc, hcov⟩ := ihc k (by omega) hk2
            exact ⟨c, List.mem_cons_of_mem _ hc, hcov⟩
        · rw [List.chain'_cons]
          refine ⟨⟨?_, ?_⟩, ihch⟩
          · simp only
            omega
          · simp only
            omega

lemma chunk_text_small (text : Str) (t o : Nat) (h : text ≠ [])
    (hwin : text.length ≤ max 200 (t * 4)) :
    chunk_text text t o = [(0, text.length, text)] := by
  have hlen : 0 < text.length := List.length_pos.mpr h
  have hne : text.isEmpty = false := by
    cases text with
    | nil => exact absurd rfl h
    | cons c cs => rfl
  unfold chunk_text
  rw [if_neg (by simp [hne])]
  rw [chunkLoop, dif_pos hlen]
  have hj : min text.length (0 + max 200 (t * 4)) = text.length := by omega
  rw [if_pos hj, hj]
  simp

/-- C5: the spans of chunk_text cover exactly [0, len(text)): empty text
yields no chunks; otherwise the first span starts at 0, every position
below the length lies inside some span, spans are increasing with no gap
between consecutive spans, every span stays inside the text, and the last
span ends exactly at the length; when the text fits in the effective
window max(200, target_tokens*4), a single chunk spans the whole text. -/
theorem spec_c5_chunk_cover (text : Str) (t o : Nat) :
    (text = [] → chunk_text text t o = []) ∧
    (text ≠ [] →
      (chunk_text text t o).head?.map (fun c => c.1) = some 0 ∧
      ((chunk_text text t o).getLast?.map (fun c => c.2.1)) = some text.length ∧
      (∀ c ∈ chunk_text text t o, c.1 < c.2.1 ∧ c.2.1 ≤ text.length) ∧
      (∀ k, k < text.length → ∃ c ∈ chunk_text text t o, c.1 ≤ k ∧ k < c.2.1) ∧
      List.Chain' (fun c d => c.1 < d.1 ∧ d.1 ≤ c.2.1) (chunk_text text t o)) ∧
    (text ≠ [] → text.length ≤ max 200 (t * 4) →
      chunk_text text t o = [(0, text.length, text)]) := by
  refine ⟨?_, ?_, ?_⟩
  · intro h
    simp [chunk_text, h]
  · intro h
    have hlen : 0 < text.length := List.length_pos.mpr h
    have hne : text.isEmpty = false := by
      cases text with
      | nil => exact absurd rfl h
      | cons c cs => rfl
    unfold chunk_text
    rw [if_neg (by simp [hne])]
    obtain ⟨h1, h2, h3, h4, h5⟩ :=
      chunkLoop_spec text (max 200 (t * 4)) (max 200 (t * 4) - o * 4)
        (Nat.lt_of_lt_of_le (by norm_num) (Nat.le_max_left 200 (t * 4)))
        (Nat.sub_le _ _) text.length 0 (by omega) hlen
    exact ⟨h1, h2, fun c hc => (h3 c hc).2, fun k hk => h4 k (Nat.zero_le k) hk, h5⟩
  · exact chunk_text_small text t o

/-- C5 witness: a two-character text with the default parameters produces
exactly one chunk spanning the whole text. -/
theorem spec_c5_witness :
    chunk_text "ab".toList 800 80 = [(0, "ab".toList.length, "ab".toList)] := by
  have h := (spec_c5_chunk_cover "ab".toList 800 80).2.2 (by decide) (by decide)
  exact h

lemma chunkLoopF_eq (text : Str) (approx stride : Nat) (ha : 0 < approx) :
    ∀ fuel i, text.length - i < fuel →
      chunkLoopF text approx stride fuel i = some (chunkLoop text approx stride ha i) := by
  intro fuel
  induction fuel with
  | zero => intro i h; omega
  | succ fuel ih =>
    intro i hfi
    rw [chunkLoopF, chunkLoop]
    by_cases hi : i < text.length
    · rw [if_pos hi, dif_pos hi]
      simp only
      by_cases hj : min text.length (i + approx) = text.length
      · rw [if_pos hj, if_pos hj]
      · rw [if_neg hj, if_neg hj]
        have hi2 : i < i + (if 0 < stride then stride else approx) := by split <;> omega
        rw [ih _ (by omega)]
        rfl
    · rw [if_neg hi, dif_neg hi]

/-- C6: chunk_text terminates on every input, the degenerate overlap
(overlap*4 at least the window size) included: running the source while
loop with fuel len(text)+1 already converges, and its value is exactly
chunk_text with the effective window max(200, target_tokens*4) and the
advance per step being window-overlap*4 when that is positive and the
full window otherwise. -/
theorem spec_c6_chunk_terminates (text : Str) (t o : Nat) :
    chunkLoopF text (max 200 (t * 4)) (max 200 (t * 4) - o * 4) (text.length + 1) 0 =
      some (chunk_text text t o) := by
  have ha : 0 < max 200 (t * 4) :=
    Nat.lt_of_lt_of_le (by norm_num) (Nat.le_max_left 200 (t * 4))
  cases htext : text with
  | nil => rfl
  | cons c cs =>
    rw [chunkLoopF_eq (c :: cs) (max 200 (t * 4)) (max 200 (t * 4) - o * 4) ha
        ((c :: cs).length + 1) 0 (by omega)]
    unfold chunk_text
    rw [if_neg (by simp)]

/-- C7: the changed subset computed by the diff stage is all discovered
files under force_reembed (any mode), all discovered files under mode
"full", and in incremental mode without force exactly the files whose path
is absent from the persisted fingerprint table or whose fingerprint
differs (so files with unchanged fingerprints are excluded). -/
theorem spec_c7_diff_changed_subset (known : String → Option String) (mode : String)
    (files changed0 : List FileRec) (chunks0 : List ChunkRec) (errors0 : List String) :
    (diffStage known ⟨mode, true, files, changed0, chunks0, errors0⟩).changed = files ∧
    (diffStage known ⟨"full", false, files, changed0, chunks0, errors0⟩).changed = files ∧
    (∀ f, f ∈ (diffStage known
        ⟨"incremental", false, files, changed0, chunks0, errors0⟩).changed ↔
      f ∈ files ∧ known f.path ≠ some f.sha256) := by
  refine ⟨rfl, ?_, ?_⟩
  · simp [diffStage]
  · intro f
    simp only [diffStage, if_neg (by simp : ¬((false : Bool) = true)), List.mem_filter]
    constructor
    · rintro ⟨hmem, hcond⟩
      refine ⟨hmem, ?_⟩
      cases hk : known f.path with
      | none => simp [hk]
      | some sha =>
        rw [hk] at hcond
        simp only [Bool.or_eq_true, beq_iff_eq, bne_iff_ne] at hcond
        rcases hcond with hcond | hcond
        · exact absurd hcond (by decide)
        · simp [hk, hcond]
    · rintro ⟨hmem, hcond⟩
      refine ⟨hmem, ?_⟩
      cases hk : known f.path with
      | none => simp
      | some sha =>
        rw [hk] at hcond
        simp only [Bool.or_eq_true, bne_iff_ne]
        right
        intro heq
        exact hcond (by rw [heq])

/-- C8: a vector record identifier is the pure function
"<fingerprint>:<chunk index>" of the file's content fingerprint and the
chunk position: two files with the same fingerprint and the same extracted
text produce identical id lists through parse_chunk and upsert_vectors
(so re-indexing unchanged bytes is idempotent), and the ids are exactly
sha:0, sha:1, ... up to the chunk count of the text. -/
theorem spec_c8_vector_id_pure (f g : FileRec) (txt : Str) (h : f.sha256 = g.sha256) :
    upsertIds (parse_chunkStage (fun _ => txt)
        ⟨"incremental", false, [], [f], [], []⟩) =
      upsertIds (parse_chunkStage (fun _ => txt)
        ⟨"incremental", false, [], [g], [], []⟩) ∧
    upsertIds (parse_chunkStage (fun _ => txt)
        ⟨"incremental", false, [], [f], [], []⟩) =
      (List.range (chunk_text txt 800 80).length).map
        (fun i => f.sha256 ++ ":" ++ toString i) := by
  have key : ∀ e : FileRec,
      upsertIds (parse_chunkStage (fun _ => txt)
        ⟨"incremental", false, [], [e], [], []⟩) =
      (List.range (chunk_text txt 800 80).length).map
        (fun i => e.sha256 ++ ":" ++ toString i) := by
    intro e
    simp only [parse_chunkStage, upsertIds, List.filterMap_cons, List.filterMap_nil]
    by_cases ht : txt.isEmpty
    · have : txt = [] := by simpa [List.isEmpty_iff] using ht
      subst this
      simp [chunk_text]
    · rw [if_neg ht]
      simp only [List.flatMap_cons, List.flatMap_nil, List.append_nil, List.map_map]
      have : (List.map Prod.fst (chunk_text txt 800 80).enum).map
          (fun i => e.sha256 ++ ":" ++ toString i) =
          (List.range (chunk_text txt 800 80).length).map
            (fun i => e.sha256 ++ ":" ++ toString i) := by
        rw [List.enum_map_fst]
      rw [← this, List.map_map]
      rfl
  exact ⟨(key f).trans (by rw [h]; exact (key g).symm), key f⟩

/-- C8 witness: two file records sharing a fingerprint but differing in
every other field produce the identical id list sha1:0 for the one-chunk
text abc. -/
theorem spec_c8_witness :
    upsertIds (parse_chunkStage (fun _ => "abc".toList)
        ⟨"incremental", false, [], [⟨"a.txt", 3, 5, "sha1", "text/plain", ".txt"⟩], [], []⟩) =
      upsertIds (parse_chunkStage (fun _ => "abc".toList)
        ⟨"incremental", false, [], [⟨"b.txt", 9, 7, "sha1", "text/x", ".txt"⟩], [], []⟩) ∧
    upsertIds (parse_chunkStage (fun _ => "abc".toList)
        ⟨"incremental", false, [], [⟨"a.txt", 3, 5, "sha1", "text/plain", ".txt"⟩], [], []⟩) =
      ["sha1:0"] := by
  have h := spec_c8_vector_id_pure ⟨"a.txt", 3, 5, "sha1", "text/plain", ".txt"⟩
    ⟨"b.txt", 9, 7, "sha1", "text/x", ".txt"⟩ "abc".toList rfl
  refine ⟨h.1, h.2.trans ?_⟩
  rw [chunk_text_small "abc".toList 800 80 (by decide) (by decide)]
  rfl

lemma foldUpsert_preserve_some (now : String) :
    ∀ (l : List FileRec) (table : String → Option FileRow) (p : String),
      (table p).isSome →
      ((l.foldl (fun t f => fun q =>
          if q = f.path then some ⟨f.bytes, f.mtime_ns, f.sha256, f.mime, now⟩ else t q)
        table) p).isSome := by
  intro l
  induction l with
  | nil => intro table p hp; exact hp
  | cons g l ih =>
    intro table p hp
    refine ih _ p ?_
    by_cases hq : p = g.path <;> simp [hq, hp]

lemma foldUpsert_mem (now : String) :
    ∀ (l : List FileRec) (table : String → Option FileRow) (f : FileRec), f ∈ l →
      ((l.foldl (fun t f => fun q =>
          if q = f.path then some ⟨f.bytes, f.mtime_ns, f.sha256, f.mime, now⟩ else t q)
        table) f.path).isSome := by
  intro l
  induction l with
  | nil => intro table f hf; simp at hf
  | cons g l ih =>
    intro table f hf
    rcases List.mem_cons.mp hf with hf | hf
    · subst hf
      simp only [List.foldl_cons]
      exact foldUpsert_preserve_some now l _ f.path (by simp)
    · exact ih _ f hf

lemma foldUpsert_frame (now : String) :
    ∀ (l : List FileRec) (table : String → Option FileRow) (p : String),
      (∀ f ∈ l, f.path ≠ p) →
      (l.foldl (fun t f => fun q =>
          if q = f.path then some ⟨f.bytes, f.mtime_ns, f.sha256, f.mime, now⟩ else t q)
        table) p = table p := by
  intro l
  induction l with
  | nil => intro table p hp; rfl
  | cons g l ih =>
    intro table p hp
    simp only [List.foldl_cons]
    rw [ih _ p (fun f hf => hp f (List.mem_cons_of_mem _ hf))]
    rw [if_neg (fun heq => hp g (List.mem_cons_self _ _) heq.symm)]

/-- C9: the commit stage run after parse_chunk upserts a row into the
files table for every file of the changed subset (parse_chunk leaves the
changed subset untouched, so this includes a file whose extraction gave
empty text, zero chunks and a parse-empty soft error), and leaves every
row whose path is outside the changed subset exactly as it was. -/
theorem spec_c9_commit_upserts_changed (readText : String → Str) (s : IndexState)
    (table : String → Option FileRow) (now : String) :
    (parse_chunkStage readText s).changed = s.changed ∧
    (∀ f ∈ s.changed,
      ((commit_runStage table (parse_chunkStage readText s) now) f.path).isSome) ∧
    (∀ p, (∀ f ∈ s.changed, f.path ≠ p) →
      (commit_runStage table (parse_chunkStage readText s) now) p = table p) := by
  refine ⟨rfl, ?_, ?_⟩
  · intro f hf
    exact foldUpsert_mem now s.changed table f hf
  · intro p hp
    exact foldUpsert_frame now s.changed table p hp

/-- C9 witness: a changed file whose text extraction yields the empty
string produces zero chunks and a parse-empty soft error, yet commit still
writes its row; an untouched path stays absent. -/
theorem spec_c9_witness :
    (parse_chunkStage (fun _ => [])
      ⟨"incremental", false, [⟨"a.txt", 3, 5, "sha", "text/plain", ".txt"⟩],
        [⟨"a.txt", 3, 5, "sha", "text/plain", ".txt"⟩], [], []⟩).chunks = [] ∧
    (parse_chunkStage (fun _ => [])
      ⟨"incremental", false, [⟨"a.txt", 3, 5, "sha", "text/plain", ".txt"⟩],
        [⟨"a.txt", 3, 5, "sha", "text/plain", ".txt"⟩], [], []⟩).errors =
      ["parse-empty:a.txt"] ∧
    ((commit_runStage (fun _ => none)
      (parse_chunkStage (fun _ => [])
        ⟨"incremental", false, [⟨"a.txt", 3, 5, "sha", "text/plain", ".txt"⟩],
          [⟨"a.txt", 3, 5, "sha", "text/plain", ".txt"⟩], [], []⟩) "now") "a.txt").isSome ∧
    (commit_runStage (fun _ => none)
      (parse_chunkStage (fun _ => [])
        ⟨"incremental", false, [⟨"a.txt", 3, 5, "sha", "text/plain", ".txt"⟩],
          [⟨"a.txt", 3, 5, "sha", "text/plain", ".txt"⟩], [], []⟩) "now") "b.txt" = none := by
  refine ⟨rfl, by decide, ?_, ?_⟩
  · exact (spec_c9_commit_upserts_changed (fun _ => [])
      ⟨"incremental", false, [⟨"a.txt", 3, 5, "sha", "text/plain", ".txt"⟩],
        [⟨"a.txt", 3, 5, "sha", "text/plain", ".txt"⟩], [], []⟩
      (fun _ => none) "now").2.1 ⟨"a.txt", 3, 5, "sha", "text/plain", ".txt"⟩
      (List.mem_singleton_self _)
  · exact (spec_c9_commit_upserts_changed (fun _ => [])
      ⟨"incremental", false, [⟨"a.txt", 3, 5, "sha", "text/plain", ".txt"⟩],
        [⟨"a.txt", 3, 5, "sha", "text/plain", ".txt"⟩], [], []⟩
      (fun _ => none) "now").2.2 "b.txt" (by decide)

/-- Number of results in l whose url field is exactly some u. -/
def countUrl (l : List UnifiedResult) (u : Str) : Nat :=
  l.countP (fun r => decide (r.url = some u))

lemma insertDesc_countP (p : UnifiedResult → Bool) (r : UnifiedResult) :
    ∀ l : List UnifiedResult, (insertDesc r l).countP p = ((r :: l).countP p) := by
  intro l
  induction l with
  | nil => rfl
  | cons x xs ih =>
    rw [insertDesc]
    split
    · rfl
    · simp only [List.countP_cons, ih]
      omega

lemma sortDesc_countP (p : UnifiedResult → Bool) :
    ∀ l : List UnifiedResult, (sortDesc l).countP p = l.countP p := by
  intro l
  induction l with
  | nil => rfl
  | cons x xs ih =>
    rw [sortDesc, insertDesc_countP, List.countP_cons, List.countP_cons, ih]

lemma countUrl_snoc (acc : List UnifiedResult) (r : UnifiedResult) (u : Str) :
    countUrl (acc ++ [r]) u = countUrl acc u + (if r.url = some u then 1 else 0) := by
  simp only [countUrl, List.countP_append, List.countP_cons, List.countP_nil]
  split <;> rename_i hru
  · rw [if_pos (by simpa using hru)]
  · rw [if_neg (by simpa using hru)]

lemma urlTruthy_of_eq_some {r : UnifiedResult} {u : Str} (hu : u ≠ [])
    (hru : r.url = some u) : urlTruthy r.url = true := by
  rw [hru]
  simp only [urlTruthy, Bool.not_eq_true']
  cases u with
  | nil => exact absurd rfl hu
  | cons c cs => rfl

lemma dedupLoop_countUrl_le (u : Str) (hu : u ≠ []) :
    ∀ (input : List UnifiedResult) (maxR : Nat) (acc : List UnifiedResult)
      (seenUrls seenFps : List Str),
      countUrl acc u ≤ 1 →
      (1 ≤ countUrl acc u → u ∈ seenUrls) →
      countUrl (dedupLoop maxR input acc seenUrls seenFps) u ≤ 1 := by
  intro input
  induction input with
  | nil => intro maxR acc su sf h1 h2; exact h1
  | cons r rest ih =>
    intro maxR acc su sf h1 h2
    simp only [dedupLoop]
    by_cases hc1 : urlTruthy r.url = true ∧ su.contains (r.url.getD []) = true
    · rw [if_pos hc1]
      exact ih maxR acc su sf h1 h2
    · rw [if_neg hc1]
      by_cases hc2 : sf.contains (contentFp r) = true
      · rw [if_pos hc2]
        exact ih maxR acc su sf h1 h2
      · rw [if_neg hc2]
        have hinv1 : countUrl (acc ++ [r]) u ≤ 1 := by
          rw [countUrl_snoc]
          by_cases hru : r.url = some u
          · have hzero : countUrl acc u = 0 := by
              by_contra hne
              have hmem := h2 (by omega)
              exact hc1 ⟨urlTruthy_of_eq_some hu hru,
                by simpa [hru, List.contains] using hmem⟩
            simp [hru, hzero]
          · simp only [if_neg hru]
            omega
        have hinv2 : 1 ≤ countUrl (acc ++ [r]) u →
            u ∈ (if urlTruthy r.url = true then su ++ [r.url.getD []] else su) := by
          intro hcnt
          by_cases hru : r.url = some u
          · rw [if_pos (urlTruthy_of_eq_some hu hru), hru]
            simp
          · have hmem : u ∈ su := by
              apply h2
              rw [countUrl_snoc, if_neg hru] at hcnt
              omega
            split
            · exact List.mem_append_left _ hmem
            · exact hmem
        split
        · exact hinv1
        · exact ih maxR (acc ++ [r]) _ _ hinv1 hinv2

lemma genericMerge_countUrl_le (a b : List UnifiedResult) (maxR : Nat) (u : Str)
    (hu : u ≠ []) : countUrl (genericMerge a b maxR) u ≤ 1 := by
  have h1 : countUrl (dedupLoop maxR (sortDesc (a ++ b)) [] [] []) u ≤ 1 :=
    dedupLoop_countUrl_le u hu (sortDesc (a ++ b)) maxR [] [] []
      (by simp [countUrl]) (by simp [countUrl])
  calc countUrl (genericMerge a b maxR) u
      ≤ countUrl (sortDesc (dedupLoop maxR (sortDesc (a ++ b)) [] [] [])) u :=
        (List.take_sublist _ _).countP_le _
    _ = countUrl (dedupLoop maxR (sortDesc (a ++ b)) [] [] []) u :=
        sortDesc_countP _ _
    _ ≤ 1 := h1

lemma genericMerge_length_le (a b : List UnifiedResult) (maxR : Nat) :
    (genericMerge a b maxR).length ≤ maxR :=
  List.length_take_le _ _

/-- C4 counterexample: the interleaved strategy bypasses deduplication,
so two inputs carrying the same non-null URL both appear in the output,
refuting the claim that every strategy emits at most one result per
distinct URL. -/
theorem spec_c4_counterexample :
    ¬ (∀ (ls ws : List UnifiedResult) (strategy : Str) (maxR : Nat) (u : Str),
        countUrl (merge_and_rank_results ls ws strategy maxR).output u ≤ 1 ∧
        (merge_and_rank_results ls ws strategy maxR).output.length ≤ maxR) := by
  intro hcl
  have h := (hcl [⟨"local".toList, "t1".toList, "c1".toList, some "u".toList, 0⟩]
      [⟨"web".toList, "t2".toList, "c2".toList, some "u".toList, 0⟩]
      "interleaved".toList 10 "u".toList).1
  have h2 : countUrl (merge_and_rank_results
      [⟨"local".toList, "t1".toList, "c1".toList, some "u".toList, 0⟩]
      [⟨"web".toList, "t2".toList, "c2".toList, some "u".toList, 0⟩]
      "interleaved".toList 10).output "u".toList = 2 := by decide
  omega

/-- C4 amended: for every pair of input lists and every max_results N the
fused output has length at most N; the at-most-one-result-per-URL
guarantee holds for every strategy except interleaved (which skips
deduplication) and for truthy URLs (non-null and nonempty; Python
truthiness also exempts the empty-string URL from deduplication). -/
theorem spec_c4_dedup_and_cap (ls ws : List UnifiedResult) (strategy : Str) (maxR : Nat) :
    (merge_and_rank_results ls ws strategy maxR).output.length ≤ maxR ∧
    (strategy ≠ "interleaved".toList →
      ∀ u : Str, u ≠ [] →
        countUrl (merge_and_rank_results ls ws strategy maxR).output u ≤ 1) := by
  unfold merge_and_rank_results
  split_ifs with hs1 hs2 hs3
  · exact ⟨genericMerge_length_le _ _ _,
      fun _ u hu => genericMerge_countUrl_le _ _ _ u hu⟩
  · exact ⟨genericMerge_length_le _ _ _,
      fun _ u hu => genericMerge_countUrl_le _ _ _ u hu⟩
  · exact ⟨List.length_take_le _ _, fun hne => absurd hs3 hne⟩
  · exact ⟨genericMerge_length_le _ _ _,
      fun _ u hu => genericMerge_countUrl_le _ _ _ u hu⟩

/-- C4 witness: the balanced strategy on two results sharing one URL
emits it once and respects the cap. -/
theorem spec_c4_witness :
    countUrl (merge_and_rank_results
      [⟨"local".toList, "t1".toList, "c1".toList, some "u".toList, 0⟩]
      [⟨"web".toList, "t2".toList, "c2".toList, some "u".toList, 0⟩]
      "balanced".toList 10).output "u".toList ≤ 1 :=
  (spec_c4_dedup_and_cap
    [⟨"local".toList, "t1".toList, "c1".toList, some "u".toList, 0⟩]
    [⟨"web".toList, "t2".toList, "c2".toList, some "u".toList, 0⟩]
    "balanced".toList 10).2 (by decide) "u".toList (by decide)
